import Mathlib

/-!
Verification of the Monte Carlo cycle-time simulation engine
(`MonteCarloApp.run_simulation` in `src/main.py`).

The engine is embedded shallowly:

* cycle times and all numeric results are rationals (`ℚ`);
* the pseudo-random source of `np.random.choice` is an explicit stream
  of natural numbers, one index per draw, reduced modulo the population
  size — every theorem quantifies over all streams;
* the Tk widgets only transport the configuration, so the engine is a
  pure function from `(history, K, N, T, P, stream)` to a forecast
  table or a validation error.
-/

/-- Validation failures of `run_simulation`: the `N`/`sims` bounds check
(line 103 of `main.py`) and the history-sufficiency check (line 108). -/
inductive EngineError where
  | invalidConfig : EngineError
  | insufficientData : EngineError
deriving DecidableEq

/-- Python slice `l[s:]` for an integer start `s`: a non-negative start
drops `s` elements (clamped at the end), a negative start begins at
`max (len + s) 0`, i.e. keeps the last `-s` elements. -/
def pySliceFrom (l : List ℚ) (s : ℤ) : List ℚ :=
  if 0 ≤ s then l.drop s.toNat else l.drop (l.length - (-s).toNat)

/-- Line 107 of `main.py`:
`history = self.cycle_times[-hist_n:] if hist_n < len(self.cycle_times) else self.cycle_times`. -/
def effectiveHistory (history : List ℚ) (K : ℤ) : List ℚ :=
  if K < (history.length : ℤ) then pySliceFrom history (-K) else history

/-- Modelled from the spec: "take the last K elements of history" — the
suffix of length `K` (empty when `K = 0`), used to compare the spec's
wording with the code's slice. -/
def lastElems (l : List ℚ) (K : ℕ) : List ℚ :=
  l.drop (l.length - K)

/-- Model of `np.random.choice(population, size, replace=True)`: the
`d`-th draw picks the element indexed by `stream d` reduced modulo the
population size (uniform and independent in numpy; here the stream is
an arbitrary parameter). -/
def npChoice (population : List ℚ) (size : ℕ) (stream : ℕ → ℕ) : List ℚ :=
  (List.range size).map (fun d => population.getD (stream d % population.length) 0)

/-- Running cumulative sums starting from accumulator `acc`. -/
def cumsumFrom (acc : ℚ) : List ℚ → List ℚ
  | [] => []
  | x :: xs => (acc + x) :: cumsumFrom (acc + x) xs

/-- Model of `np.cumsum`: `cumsum [a, b, c] = [a, a+b, a+b+c]`. -/
def cumsum (l : List ℚ) : List ℚ :=
  cumsumFrom 0 l

/-- Lines 112–115 of `main.py`: row `i` of `sim_matrix` is the cumulative
sum of the `n` values drawn for trial `i`. -/
def simMatrix (eff : List ℚ) (n t : ℕ) (stream : ℕ → ℕ → ℕ) : List (List ℚ) :=
  (List.range t).map (fun i => cumsum (npChoice eff n (stream i)))

/-- Column `k` of the trial matrix: `sim_matrix[:, k]`. -/
def column (k : ℕ) (M : List (List ℚ)) : List ℚ :=
  M.map (fun row => row.getD k 0)

/-- Linear interpolation of a sorted sequence at virtual rank `r`, as
`np.percentile` computes it: `s[i] + (r - i) * (s[i+1] - s[i])` where
`i = ⌊r⌋` and the indices are clamped to the last position. -/
def interpolate (s : List ℚ) (r : ℚ) : ℚ :=
  s.getD (min (Int.toNat ⌊r⌋) (s.length - 1)) 0 +
    (r - (min (Int.toNat ⌊r⌋) (s.length - 1) : ℕ)) *
      (s.getD (min (min (Int.toNat ⌊r⌋) (s.length - 1) + 1) (s.length - 1)) 0 -
        s.getD (min (Int.toNat ⌊r⌋) (s.length - 1)) 0)

/-- Linear-interpolation percentile of an already sorted sequence, as
`np.percentile` computes it: interpolation at rank `p/100 * (len - 1)`. -/
def percentileOfSorted (s : List ℚ) (p : ℕ) : ℚ :=
  interpolate s ((p : ℚ) * ((s.length : ℚ) - 1) / 100)

/-- Model of `np.percentile(data, p)` with the default linear method:
sort, then interpolate. -/
def percentile (l : List ℚ) (p : ℕ) : ℚ :=
  percentileOfSorted (l.insertionSort (· ≤ ·)) p

/-- Modelled from the spec: "for a sorted sequence of length T, the p-th
percentile interpolates between floor and ceil of the rank
`p/100 * (T-1)`" — stated with `⌊r⌋` and `⌈r⌉` exactly as worded. -/
def percentileSpecOfSorted (s : List ℚ) (p : ℕ) : ℚ :=
  s.getD (Int.toNat ⌊(p : ℚ) * ((s.length : ℚ) - 1) / 100⌋) 0 +
    ((p : ℚ) * ((s.length : ℚ) - 1) / 100 - (⌊(p : ℚ) * ((s.length : ℚ) - 1) / 100⌋ : ℚ)) *
      (s.getD (Int.toNat ⌈(p : ℚ) * ((s.length : ℚ) - 1) / 100⌉) 0 -
        s.getD (Int.toNat ⌊(p : ℚ) * ((s.length : ℚ) - 1) / 100⌋) 0)

/-- Spec-side percentile of an unsorted collection. -/
def percentileSpec (l : List ℚ) (p : ℕ) : ℚ :=
  percentileSpecOfSorted (l.insertionSort (· ≤ ·)) p

/-- Lines 126–132 of `main.py`: row `pos` (0-based) of the output table
holds the 1-based position and, for each requested percentile `p`, the
percentile of column `pos` of the trial matrix. -/
def forecastTable (eff : List ℚ) (n t : ℕ) (P : List ℕ) (stream : ℕ → ℕ → ℕ) :
    List (ℕ × List (ℕ × ℚ)) :=
  (List.range n).map (fun pos =>
    (pos + 1, P.map (fun p => (p, percentile (column pos (simMatrix eff n t stream)) p))))

/-- The simulation engine, `MonteCarloApp.run_simulation` (lines 94–132
of `main.py`) stripped of its GUI transport: validate `N` and the trial
count, truncate the history, check sufficiency, then simulate and
aggregate. -/
def runSimulation (history : List ℚ) (K N T : ℤ) (P : List ℕ) (stream : ℕ → ℕ → ℕ) :
    Except EngineError (List (ℕ × List (ℕ × ℚ))) :=
  if N ≤ 0 ∨ T < 10000 ∨ 30000 < T then
    .error .invalidConfig
  else if (effectiveHistory history K).length < N.toNat then
    .error .insufficientData
  else
    .ok (forecastTable (effectiveHistory history K) N.toNat T.toNat P stream)

example : cumsum [6, 8, 7, 5, 9] = [6, 14, 21, 26, 35] := by with_unfolding_all rfl

example : effectiveHistory [1, 2, 3, 4] 2 = [3, 4] := by with_unfolding_all rfl

example : effectiveHistory [1, 2, 3, 4] 0 = [1, 2, 3, 4] := by with_unfolding_all rfl

example : effectiveHistory [1, 2, 3, 4] (-1) = [2, 3, 4] := by with_unfolding_all rfl

example : percentile [1, 2, 3, 4, 5] 50 = 3 := by with_unfolding_all rfl

example : percentile [1, 2, 3, 4] 50 = 5 / 2 := by with_unfolding_all rfl

example : percentile [1, 2, 3, 4] 100 = 4 := by with_unfolding_all rfl

/-- Indexing a mapped range: position `i < t` holds `f i`. -/
theorem getD_map_range {α : Type _} (f : ℕ → α) (t i : ℕ) (d : α) (h : i < t) :
    ((List.range t).map f).getD i d = f i := by
  have hl : i < ((List.range t).map f).length := by simpa using h
  rw [List.getD_eq_getElem _ _ hl, List.getElem_map, List.getElem_range]

/-- Cumulative sums preserve length. -/
theorem cumsumFrom_length (l : List ℚ) : ∀ a : ℚ, (cumsumFrom a l).length = l.length := by
  induction l with
  | nil => intro a; rfl
  | cons x xs ih => intro a; simp [cumsumFrom, ih]

/-- Cumulative sums preserve length. -/
theorem cumsum_length (l : List ℚ) : (cumsum l).length = l.length :=
  cumsumFrom_length l 0

/-- Entry `k` of the running sums from `a` is `a` plus the sum of the
first `k + 1` values. -/
theorem cumsumFrom_getD (l : List ℚ) :
    ∀ (a : ℚ) (k : ℕ), k < l.length →
      (cumsumFrom a l).getD k 0 = a + (l.take (k + 1)).sum := by
  induction l with
  | nil => intro a k h; exact absurd h (by simp)
  | cons x xs ih =>
    intro a k h
    cases k with
    | zero => simp [cumsumFrom]
    | succ k =>
      have hk : k < xs.length := by simpa using h
      simp only [cumsumFrom, List.getD_cons_succ, ih (a + x) k hk, List.take_succ_cons,
        List.sum_cons]
      ring

/-- Entry `k` of `np.cumsum` is the sum of the first `k + 1` values. -/
theorem cumsum_getD (l : List ℚ) (k : ℕ) (h : k < l.length) :
    (cumsum l).getD k 0 = (l.take (k + 1)).sum := by
  simpa using cumsumFrom_getD l 0 k h

/-- `np.random.choice` returns exactly `size` values. -/
theorem npChoice_length (pop : List ℚ) (n : ℕ) (stream : ℕ → ℕ) :
    (npChoice pop n stream).length = n := by
  simp [npChoice]

/-- The `d`-th drawn value, explicitly. -/
theorem npChoice_getD (pop : List ℚ) (n : ℕ) (stream : ℕ → ℕ) (d : ℕ) (h : d < n) :
    (npChoice pop n stream).getD d 0 = pop.getD (stream d % pop.length) 0 :=
  getD_map_range _ n d 0 h

/-- A defaulted lookup is an element of the list or the default. -/
theorem getD_mem_or_eq_zero (l : List ℚ) (i : ℕ) : l.getD i 0 ∈ l ∨ l.getD i 0 = 0 := by
  by_cases h : i < l.length
  · left
    rw [List.getD_eq_getElem _ _ h]
    exact List.getElem_mem h
  · right
    exact List.getD_eq_default _ _ (le_of_not_lt h)

/-- Every value drawn from a non-empty population belongs to it. -/
theorem npChoice_mem (pop : List ℚ) (n : ℕ) (stream : ℕ → ℕ) (hne : pop ≠ []) :
    ∀ x ∈ npChoice pop n stream, x ∈ pop := by
  intro x hx
  simp only [npChoice, List.mem_map, List.mem_range] at hx
  obtain ⟨d, _, rfl⟩ := hx
  have hlen : 0 < pop.length := List.length_pos.mpr hne
  have hmod : stream d % pop.length < pop.length := Nat.mod_lt _ hlen
  rw [List.getD_eq_getElem _ _ hmod]
  exact List.getElem_mem hmod

/-- Values drawn from a population of non-negatives are non-negative. -/
theorem npChoice_nonneg (pop : List ℚ) (n : ℕ) (stream : ℕ → ℕ)
    (hnn : ∀ x ∈ pop, 0 ≤ x) : ∀ x ∈ npChoice pop n stream, 0 ≤ x := by
  intro x hx
  simp only [npChoice, List.mem_map, List.mem_range] at hx
  obtain ⟨d, _, rfl⟩ := hx
  rcases getD_mem_or_eq_zero pop (stream d % pop.length) with h | h
  · exact hnn _ h
  · rw [h]

/-- The trial matrix has one row per trial. -/
theorem simMatrix_length (eff : List ℚ) (n t : ℕ) (stream : ℕ → ℕ → ℕ) :
    (simMatrix eff n t stream).length = t := by
  simp [simMatrix]

/-- Row `i` of the trial matrix is the cumulative sum of trial `i`'s draws. -/
theorem simMatrix_getD (eff : List ℚ) (n t : ℕ) (stream : ℕ → ℕ → ℕ) (i : ℕ) (h : i < t) :
    (simMatrix eff n t stream).getD i [] = cumsum (npChoice eff n (stream i)) :=
  getD_map_range _ t i [] h

/-- A column has one entry per trial. -/
theorem column_length (k : ℕ) (M : List (List ℚ)) : (column k M).length = M.length := by
  simp [column]

/-- The forecast table has one row per backlog position. -/
theorem forecastTable_length (eff : List ℚ) (n t : ℕ) (P : List ℕ) (stream : ℕ → ℕ → ℕ) :
    (forecastTable eff n t P stream).length = n := by
  simp [forecastTable]

/-- Row `pos` of the forecast table, explicitly. -/
theorem forecastTable_getD (eff : List ℚ) (n t : ℕ) (P : List ℕ) (stream : ℕ → ℕ → ℕ)
    (pos : ℕ) (h : pos < n) :
    (forecastTable eff n t P stream).getD pos (0, []) =
      (pos + 1, P.map (fun p => (p, percentile (column pos (simMatrix eff n t stream)) p))) :=
  getD_map_range _ n pos (0, []) h

/-- The effective history only contains values of the loaded history. -/
theorem effectiveHistory_subset (history : List ℚ) (K : ℤ) :
    ∀ x ∈ effectiveHistory history K, x ∈ history := by
  intro x hx
  unfold effectiveHistory pySliceFrom at hx
  split at hx
  · split at hx
    · exact List.mem_of_mem_drop hx
    · exact List.mem_of_mem_drop hx
  · exact hx

/-- Failed validation of `N` or the trial count. -/
theorem runSimulation_invalid (history : List ℚ) (K N T : ℤ) (P : List ℕ)
    (stream : ℕ → ℕ → ℕ) (h : N ≤ 0 ∨ T < 10000 ∨ 30000 < T) :
    runSimulation history K N T P stream = .error .invalidConfig := by
  unfold runSimulation
  rw [if_pos h]

/-- Failed sufficiency check on the effective history. -/
theorem runSimulation_insufficient (history : List ℚ) (K N T : ℤ) (P : List ℕ)
    (stream : ℕ → ℕ → ℕ) (hN : 1 ≤ N) (hT1 : 10000 ≤ T) (hT2 : T ≤ 30000)
    (hlen : (effectiveHistory history K).length < N.toNat) :
    runSimulation history K N T P stream = .error .insufficientData := by
  unfold runSimulation
  rw [if_neg (by omega), if_pos hlen]

/-- A validated run produces the forecast table. -/
theorem runSimulation_ok (history : List ℚ) (K N T : ℤ) (P : List ℕ)
    (stream : ℕ → ℕ → ℕ) (hN : 1 ≤ N) (hT1 : 10000 ≤ T) (hT2 : T ≤ 30000)
    (hlen : N.toNat ≤ (effectiveHistory history K).length) :
    runSimulation history K N T P stream =
      .ok (forecastTable (effectiveHistory history K) N.toNat T.toNat P stream) := by
  unfold runSimulation
  rw [if_neg (by omega), if_neg (not_lt.mpr hlen)]

/-- Lookups in a sorted list are monotone in the index. -/
theorem sorted_getD_mono {s : List ℚ} (hs : List.Sorted (· ≤ ·) s) {i j : ℕ}
    (hij : i ≤ j) (hj : j < s.length) : s.getD i 0 ≤ s.getD j 0 := by
  have hi : i < s.length := lt_of_le_of_lt hij hj
  rw [List.getD_eq_getElem _ _ hi, List.getD_eq_getElem _ _ hj]
  have h := hs.rel_get_of_le (a := ⟨i, hi⟩) (b := ⟨j, hj⟩) (Fin.mk_le_mk.mpr hij)
  simpa using h

/-- The virtual rank `p/100 * (len - 1)` lies between `0` and `len - 1`. -/
theorem rank_bounds (p n : ℕ) (hp : p ≤ 100) (hn : 1 ≤ n) :
    0 ≤ (p : ℚ) * ((n : ℚ) - 1) / 100 ∧ (p : ℚ) * ((n : ℚ) - 1) / 100 ≤ (n : ℚ) - 1 := by
  have hp' : (p : ℚ) ≤ 100 := by exact_mod_cast hp
  have hp0 : (0 : ℚ) ≤ (p : ℚ) := by positivity
  have hn' : (1 : ℚ) ≤ (n : ℚ) := by exact_mod_cast hn
  constructor
  · exact div_nonneg (mul_nonneg hp0 (by linarith)) (by norm_num)
  · rw [div_le_iff₀ (by norm_num : (0 : ℚ) < 100)]
    nlinarith

/-- A rank in `[0, n-1]` has a floor that is a valid index below `n - 1`,
and casting its `toNat` back to `ℚ` recovers the floor. -/
theorem floor_rank_facts {n : ℕ} (hn : 1 ≤ n) {r : ℚ} (h0 : 0 ≤ r) (h1 : r ≤ (n : ℚ) - 1) :
    0 ≤ ⌊r⌋ ∧ Int.toNat ⌊r⌋ ≤ n - 1 ∧ ((Int.toNat ⌊r⌋ : ℕ) : ℚ) = ((⌊r⌋ : ℤ) : ℚ) := by
  have hfl0 : 0 ≤ ⌊r⌋ := Int.floor_nonneg.mpr h0
  have hfl1 : ⌊r⌋ ≤ (n : ℤ) - 1 := by
    have h2 : r ≤ (((n : ℤ) - 1 : ℤ) : ℚ) := by push_cast; linarith
    have h3 := Int.floor_le_floor h2
    rwa [Int.floor_intCast] at h3
  refine ⟨hfl0, by omega, ?_⟩
  have h4 := Int.toNat_of_nonneg hfl0
  exact_mod_cast h4

/-- Interpolation into a sorted list is monotone in the rank. -/
theorem interpolate_mono (s : List ℚ) (hs : List.Sorted (· ≤ ·) s) {r1 r2 : ℚ}
    (h0 : 0 ≤ r1) (h12 : r1 ≤ r2) (h2 : r2 ≤ (s.length : ℚ) - 1) :
    interpolate s r1 ≤ interpolate s r2 := by
  have hn : 1 ≤ s.length := by
    by_contra h
    have hz : s.length = 0 := by omega
    rw [hz] at h2
    norm_num at h2
    linarith
  obtain ⟨hf1, hi1le, hi1cast⟩ := floor_rank_facts hn h0 (le_trans h12 h2)
  obtain ⟨hf2, hi2le, hi2cast⟩ := floor_rank_facts hn (le_trans h0 h12) h2
  unfold interpolate
  rw [min_eq_left hi1le, min_eq_left hi2le]
  set i1 := Int.toNat ⌊r1⌋ with hi1def
  set i2 := Int.toNat ⌊r2⌋ with hi2def
  set j1 := min (i1 + 1) (s.length - 1) with hj1def
  set j2 := min (i2 + 1) (s.length - 1) with hj2def
  have hi2lt : i2 < s.length := by omega
  have hj1lt : j1 < s.length := by omega
  have hj2lt : j2 < s.length := by omega
  have hij1 : i1 ≤ j1 := by omega
  have hij2 : i2 ≤ j2 := by omega
  have hab1 : s.getD i1 0 ≤ s.getD j1 0 := sorted_getD_mono hs hij1 hj1lt
  have hab2 : s.getD i2 0 ≤ s.getD j2 0 := sorted_getD_mono hs hij2 hj2lt
  have hfr1a : 0 ≤ r1 - (i1 : ℚ) := by
    rw [hi1cast]
    linarith [Int.floor_le r1]
  have hfr1b : r1 - (i1 : ℚ) < 1 := by
    rw [hi1cast]
    linarith [Int.lt_floor_add_one r1]
  have hfr2a : 0 ≤ r2 - (i2 : ℚ) := by
    rw [hi2cast]
    linarith [Int.floor_le r2]
  have hffle : ⌊r1⌋ ≤ ⌊r2⌋ := Int.floor_le_floor h12
  have hi12 : i1 ≤ i2 := by omega
  rcases eq_or_lt_of_le hi12 with heq | hlt
  · have hj12 : j2 = j1 := by rw [hj1def, hj2def, heq]
    rw [← heq, hj12]
    have hmul := mul_le_mul_of_nonneg_right
      (by linarith : r1 - (i1 : ℚ) ≤ r2 - (i1 : ℚ)) (sub_nonneg.mpr hab1)
    linarith
  · have hj1i2 : j1 ≤ i2 := by omega
    have step1 : s.getD i1 0 + (r1 - (i1 : ℚ)) * (s.getD j1 0 - s.getD i1 0) ≤ s.getD j1 0 := by
      nlinarith [mul_nonneg (by linarith : (0 : ℚ) ≤ 1 - (r1 - (i1 : ℚ)))
        (sub_nonneg.mpr hab1)]
    have step2 : s.getD j1 0 ≤ s.getD i2 0 := sorted_getD_mono hs hj1i2 hi2lt
    have step3 : s.getD i2 0 ≤
        s.getD i2 0 + (r2 - (i2 : ℚ)) * (s.getD j2 0 - s.getD i2 0) := by
      have := mul_nonneg hfr2a (sub_nonneg.mpr hab2)
      linarith
    linarith

/-- The percentile of a sorted sequence is monotone in the percentile. -/
theorem percentileOfSorted_mono (s : List ℚ) (hs : List.Sorted (· ≤ ·) s)
    (hlen : 1 ≤ s.length) (p q : ℕ) (hpq : p ≤ q) (hq : q ≤ 100) :
    percentileOfSorted s p ≤ percentileOfSorted s q := by
  obtain ⟨h0p, hp1⟩ := rank_bounds p s.length (le_trans hpq hq) hlen
  obtain ⟨h0q, hq1⟩ := rank_bounds q s.length hq hlen
  have hn1 : (0 : ℚ) ≤ (s.length : ℚ) - 1 := by
    have : (1 : ℚ) ≤ (s.length : ℚ) := by exact_mod_cast hlen
    linarith
  have hpq' : (p : ℚ) ≤ (q : ℚ) := by exact_mod_cast hpq
  have hr12 : (p : ℚ) * ((s.length : ℚ) - 1) / 100 ≤ (q : ℚ) * ((s.length : ℚ) - 1) / 100 := by
    have := mul_le_mul_of_nonneg_right hpq' hn1
    linarith
  exact interpolate_mono s hs h0p hr12 hq1

/-- `np.percentile` is monotone in the requested percentile. -/
theorem percentile_mono (l : List ℚ) (hne : l ≠ []) (p q : ℕ) (hpq : p ≤ q) (hq : q ≤ 100) :
    percentile l p ≤ percentile l q := by
  unfold percentile
  refine percentileOfSorted_mono _ (List.sorted_insertionSort _ _) ?_ p q hpq hq
  rw [List.length_insertionSort]
  exact List.length_pos.mpr hne

/-- On a non-empty sorted sequence and a percentile within `[0, 100]`,
the numpy-style clamped interpolation agrees with the spec's
floor/ceil description. -/
theorem percentileOfSorted_eq_spec (s : List ℚ) (hlen : 1 ≤ s.length) (p : ℕ)
    (hp : p ≤ 100) : percentileOfSorted s p = percentileSpecOfSorted s p := by
  obtain ⟨h0, h1⟩ := rank_bounds p s.length hp hlen
  obtain ⟨hf0, hile, hicast⟩ := floor_rank_facts hlen h0 h1
  unfold percentileOfSorted percentileSpecOfSorted interpolate
  set r := (p : ℚ) * ((s.length : ℚ) - 1) / 100 with hrdef
  rw [min_eq_left hile]
  by_cases hint : r = ((⌊r⌋ : ℤ) : ℚ)
  · have hceil : ⌈r⌉ = ⌊r⌋ := by rw [hint]; exact Int.ceil_intCast _
    have hz : r - ((Int.toNat ⌊r⌋ : ℕ) : ℚ) = 0 := by rw [hicast]; linarith
    have hz2 : r - ((⌊r⌋ : ℤ) : ℚ) = 0 := by linarith [hint.le, hint.ge]
    rw [hceil, hz, hz2]
    ring
  · have hflt : ((⌊r⌋ : ℤ) : ℚ) < r := lt_of_le_of_ne (Int.floor_le r) (fun h => hint h.symm)
    have hceil : ⌈r⌉ = ⌊r⌋ + 1 := by
      refine le_antisymm (Int.ceil_le.mpr ?_) ?_
      · push_cast
        linarith [Int.lt_floor_add_one r]
      · by_contra hcon
        push_neg at hcon
        have h5 : ((⌈r⌉ : ℤ) : ℚ) ≤ ((⌊r⌋ : ℤ) : ℚ) := by exact_mod_cast (by omega : ⌈r⌉ ≤ ⌊r⌋)
        linarith [Int.le_ceil r]
    have hrlt : r < (s.length : ℚ) - 1 := by
      rcases lt_or_eq_of_le h1 with h | h
      · exact h
      · exfalso
        apply hint
        rw [h]
        have hcast : ((s.length : ℚ) - 1) = (((s.length : ℤ) - 1 : ℤ) : ℚ) := by
          push_cast
          ring
        rw [hcast, Int.floor_intCast]
    have hfloorlt : ⌊r⌋ < (s.length : ℤ) - 1 := Int.floor_lt.mpr (by push_cast; linarith)
    have hjeq : min (Int.toNat ⌊r⌋ + 1) (s.length - 1) = Int.toNat ⌊r⌋ + 1 := by omega
    have hceilNat : Int.toNat ⌈r⌉ = Int.toNat ⌊r⌋ + 1 := by rw [hceil]; omega
    rw [hjeq, hceilNat, hicast]

/-- `np.percentile` agrees with the spec's floor/ceil interpolation
description on non-empty data for percentiles within `[0, 100]`. -/
theorem percentile_eq_percentileSpec (l : List ℚ) (hne : l ≠ []) (p : ℕ) (hp : p ≤ 100) :
    percentile l p = percentileSpec l p := by
  unfold percentile percentileSpec
  refine percentileOfSorted_eq_spec _ ?_ p hp
  rw [List.length_insertionSort]
  exact List.length_pos.mpr hne

/-- Pointwise domination reverses the count of values below a threshold. -/
theorem countP_lt_le_of_forall₂ {u v : List ℚ} (h : List.Forall₂ (· ≤ ·) u v) (x : ℚ) :
    v.countP (fun y => decide (y < x)) ≤ u.countP (fun y => decide (y < x)) := by
  induction h with
  | nil => simp
  | @cons a b l1 l2 h1 h2 ih =>
    rw [List.countP_cons, List.countP_cons]
    by_cases hb : b < x
    · have ha : a < x := lt_of_le_of_lt h1 hb
      rw [if_pos (decide_eq_true ha), if_pos (decide_eq_true hb)]
      omega
    · rw [if_neg (by simp [hb])]
      omega

/-- In a sorted sequence, fewer than `j + 1` values lie strictly below
the value at position `j`. -/
theorem sorted_countP_lt_le (s : List ℚ) (hs : List.Sorted (· ≤ ·) s) (j : ℕ)
    (hj : j < s.length) : s.countP (fun y => decide (y < s.getD j 0)) ≤ j := by
  set x := s.getD j 0 with hxdef
  conv_lhs => rw [← List.take_append_drop j s]
  rw [List.countP_append]
  have h1 : (s.drop j).countP (fun y => decide (y < x)) = 0 := by
    rw [List.countP_eq_zero]
    intro a ha
    rw [List.mem_iff_getElem] at ha
    obtain ⟨idx, hlt, rfl⟩ := ha
    have hlen : j + idx < s.length := by
      have := List.length_drop j s
      omega
    have hle : s.getD j 0 ≤ s.getD (j + idx) 0 := sorted_getD_mono hs (by omega) hlen
    rw [List.getD_eq_getElem _ _ hlen] at hle
    rw [List.getElem_drop]
    simp only [decide_eq_true_eq, not_lt]
    rw [hxdef]
    exact hle
  have h2 : (s.take j).countP (fun y => decide (y < x)) ≤ j := by
    refine le_trans (List.countP_le_length _) ?_
    rw [List.length_take]
    omega
  omega

/-- In a sorted sequence, a bound exceeding the value at position `j`
exceeds at least `j + 1` values. -/
theorem le_countP_of_sorted_getD_lt (s : List ℚ) (hs : List.Sorted (· ≤ ·) s) (j : ℕ)
    (hj : j < s.length) (x : ℚ) (hx : s.getD j 0 < x) :
    j + 1 ≤ s.countP (fun y => decide (y < x)) := by
  conv_rhs => rw [← List.take_append_drop (j + 1) s]
  rw [List.countP_append]
  have h1 : (s.take (j + 1)).countP (fun y => decide (y < x)) = (s.take (j + 1)).length := by
    rw [List.countP_eq_length]
    intro a ha
    rw [List.mem_take_iff_getElem] at ha
    obtain ⟨idx, hidx, rfl⟩ := ha
    have hidx' : idx < s.length := by omega
    have hle : s.getD idx 0 ≤ s.getD j 0 := sorted_getD_mono hs (by omega) hj
    rw [List.getD_eq_getElem _ _ hidx'] at hle
    exact decide_eq_true (lt_of_le_of_lt hle hx)
  have h2 : (s.take (j + 1)).length = j + 1 := by
    rw [List.length_take]
    omega
  omega

/-- Sorting preserves pointwise domination: if `u` is pointwise below
`v`, each order statistic of `u` is below the one of `v`. -/
theorem sorted_getD_le_of_forall₂ {u v : List ℚ} (h : List.Forall₂ (· ≤ ·) u v) (j : ℕ)
    (hj : j < u.length) :
    (u.insertionSort (· ≤ ·)).getD j 0 ≤ (v.insertionSort (· ≤ ·)).getD j 0 := by
  have hpu : (u.insertionSort (· ≤ ·)).Perm u := List.perm_insertionSort _ _
  have hpv : (v.insertionSort (· ≤ ·)).Perm v := List.perm_insertionSort _ _
  have hlsu : (u.insertionSort (· ≤ ·)).length = u.length := List.length_insertionSort _ _
  have hlsv : (v.insertionSort (· ≤ ·)).length = v.length := List.length_insertionSort _ _
  have hlen := h.length_eq
  have hssu : List.Sorted (· ≤ ·) (u.insertionSort (· ≤ ·)) := List.sorted_insertionSort _ _
  have hssv : List.Sorted (· ≤ ·) (v.insertionSort (· ≤ ·)) := List.sorted_insertionSort _ _
  by_contra hcon
  push_neg at hcon
  have c1 : j + 1 ≤ (v.insertionSort (· ≤ ·)).countP
      (fun y => decide (y < (u.insertionSort (· ≤ ·)).getD j 0)) :=
    le_countP_of_sorted_getD_lt _ hssv j (by omega) _ hcon
  have c2 := List.Perm.countP_eq
    (fun y => decide (y < (u.insertionSort (· ≤ ·)).getD j 0)) hpv
  have c3 := countP_lt_le_of_forall₂ h ((u.insertionSort (· ≤ ·)).getD j 0)
  have c4 := List.Perm.countP_eq
    (fun y => decide (y < (u.insertionSort (· ≤ ·)).getD j 0)) hpu
  have c5 : (u.insertionSort (· ≤ ·)).countP
      (fun y => decide (y < (u.insertionSort (· ≤ ·)).getD j 0)) ≤ j :=
    sorted_countP_lt_le _ hssu j (by omega)
  omega

/-- Percentiles respect pointwise domination of equally long sorted
sequences. -/
theorem percentileOfSorted_le_of_dominated (s1 s2 : List ℚ) (hlen12 : s1.length = s2.length)
    (hlen : 1 ≤ s1.length) (hdom : ∀ j, j < s1.length → s1.getD j 0 ≤ s2.getD j 0)
    (p : ℕ) (hp : p ≤ 100) : percentileOfSorted s1 p ≤ percentileOfSorted s2 p := by
  obtain ⟨h0, h1⟩ := rank_bounds p s1.length hp hlen
  obtain ⟨hf0, hile, hicast⟩ := floor_rank_facts hlen h0 h1
  unfold percentileOfSorted interpolate
  rw [← hlen12]
  set r := (p : ℚ) * ((s1.length : ℚ) - 1) / 100 with hrdef
  rw [min_eq_left hile]
  set i := Int.toNat ⌊r⌋ with hidef
  set j := min (i + 1) (s1.length - 1) with hjdef
  have hilt : i < s1.length := by omega
  have hjlt : j < s1.length := by omega
  have ha := hdom i hilt
  have hb := hdom j hjlt
  have hfra : 0 ≤ r - (i : ℚ) := by
    rw [hicast]
    linarith [Int.floor_le r]
  have hfrb : r - (i : ℚ) ≤ 1 := by
    rw [hicast]
    linarith [Int.lt_floor_add_one r]
  nlinarith [mul_nonneg (by linarith : (0 : ℚ) ≤ 1 - (r - (i : ℚ))) (sub_nonneg.mpr ha),
    mul_nonneg hfra (sub_nonneg.mpr hb)]

/-- Sums of longer prefixes of a non-negative sequence dominate. -/
theorem sum_take_mono (l : List ℚ) (hl : ∀ x ∈ l, 0 ≤ x) (m1 m2 : ℕ) (h : m1 ≤ m2) :
    (l.take m1).sum ≤ (l.take m2).sum := by
  have key : l.take m2 = l.take m1 ++ (l.take m2).drop m1 := by
    conv_lhs => rw [← List.take_append_drop m1 (l.take m2)]
    rw [List.take_take, min_eq_left h]
  rw [key, List.sum_append]
  have hnn : 0 ≤ ((l.take m2).drop m1).sum :=
    List.sum_nonneg (fun x hx => hl x (List.mem_of_mem_take (List.mem_of_mem_drop hx)))
  linarith

/-- Cumulative sums of non-negative values are non-decreasing. -/
theorem cumsum_getD_mono (l : List ℚ) (hl : ∀ x ∈ l, 0 ≤ x) (k1 k2 : ℕ) (h12 : k1 ≤ k2)
    (hk2 : k2 < l.length) : (cumsum l).getD k1 0 ≤ (cumsum l).getD k2 0 := by
  rw [cumsum_getD l k1 (by omega), cumsum_getD l k2 hk2]
  exact sum_take_mono l hl _ _ (by omega)

/-- Columns of a matrix whose rows are pointwise monotone between two
indices dominate each other entrywise. -/
theorem forall₂_column_le (M : List (List ℚ)) (k1 k2 : ℕ)
    (h : ∀ row ∈ M, row.getD k1 0 ≤ row.getD k2 0) :
    List.Forall₂ (· ≤ ·) (column k1 M) (column k2 M) := by
  unfold column
  rw [List.forall₂_map_left_iff, List.forall₂_map_right_iff, List.forall₂_same]
  exact h

/-- Every row of the trial matrix is non-decreasing across positions
when the sampled population is non-negative. -/
theorem simMatrix_row_mono (eff : List ℚ) (n t : ℕ) (stream : ℕ → ℕ → ℕ)
    (hnn : ∀ x ∈ eff, 0 ≤ x) (k1 k2 : ℕ) (h12 : k1 ≤ k2) (hk2 : k2 < n) :
    ∀ row ∈ simMatrix eff n t stream, row.getD k1 0 ≤ row.getD k2 0 := by
  intro row hrow
  unfold simMatrix at hrow
  rw [List.mem_map] at hrow
  obtain ⟨i, _, rfl⟩ := hrow
  apply cumsum_getD_mono
  · exact npChoice_nonneg eff n (stream i) hnn
  · exact h12
  · rw [npChoice_length]
    exact hk2

/-- For a non-negative population, column percentiles of the trial
matrix are non-decreasing across positions. -/
theorem percentile_column_mono (eff : List ℚ) (n t : ℕ) (stream : ℕ → ℕ → ℕ)
    (hnn : ∀ x ∈ eff, 0 ≤ x) (ht : 1 ≤ t) (k1 k2 : ℕ) (h12 : k1 ≤ k2) (hk2 : k2 < n)
    (p : ℕ) (hp : p ≤ 100) :
    percentile (column k1 (simMatrix eff n t stream)) p ≤
      percentile (column k2 (simMatrix eff n t stream)) p := by
  have hf := forall₂_column_le (simMatrix eff n t stream) k1 k2
    (simMatrix_row_mono eff n t stream hnn k1 k2 h12 hk2)
  unfold percentile
  refine percentileOfSorted_le_of_dominated _ _ ?_ ?_ ?_ p hp
  · rw [List.length_insertionSort, List.length_insertionSort, column_length, column_length]
  · rw [List.length_insertionSort, column_length, simMatrix_length]
    exact ht
  · intro j hj
    apply sorted_getD_le_of_forall₂ hf
    rwa [List.length_insertionSort] at hj

/-- C1: for every trial `i` of the `T` trials, the engine draws exactly
`N` values from the effective history (with replacement — an arbitrary
index stream), and the value stored for position `k` of that trial is
the cumulative sum of the first `k` drawn values in draw order. -/
theorem claim1_draws_and_cumsum (history : List ℚ) (K N T : ℤ) (P : List ℕ)
    (stream : ℕ → ℕ → ℕ) (hN : 1 ≤ N) (hT1 : 10000 ≤ T) (hT2 : T ≤ 30000)
    (hlen : N.toNat ≤ (effectiveHistory history K).length) (i : ℕ) (hi : i < T.toNat) :
    (npChoice (effectiveHistory history K) N.toNat (stream i)).length = N.toNat ∧
    (∀ x ∈ npChoice (effectiveHistory history K) N.toNat (stream i),
      x ∈ effectiveHistory history K) ∧
    (simMatrix (effectiveHistory history K) N.toNat T.toNat stream).getD i [] =
      cumsum (npChoice (effectiveHistory history K) N.toNat (stream i)) ∧
    (∀ k, k < N.toNat →
      (cumsum (npChoice (effectiveHistory history K) N.toNat (stream i))).getD k 0 =
        ((npChoice (effectiveHistory history K) N.toNat (stream i)).take (k + 1)).sum) ∧
    runSimulation history K N T P stream =
      .ok (forecastTable (effectiveHistory history K) N.toNat T.toNat P stream) := by
  have hne : effectiveHistory history K ≠ [] := by
    intro hnil
    rw [hnil] at hlen
    have h0 : ([] : List ℚ).length = 0 := rfl
    omega
  refine ⟨npChoice_length _ _ _, npChoice_mem _ _ _ hne, simMatrix_getD _ _ _ _ i hi, ?_,
    runSimulation_ok _ _ _ _ _ _ hN hT1 hT2 hlen⟩
  intro k hk
  apply cumsum_getD
  rw [npChoice_length]
  exact hk

/-- Witness for C1 at a concrete input. -/
theorem claim1_witness :
    runSimulation [1, 2] 5 1 10000 [50] (fun _ _ => 0) =
      .ok (forecastTable (effectiveHistory [1, 2] 5) (Int.toNat 1) (Int.toNat 10000) [50]
        (fun _ _ => 0)) :=
  (claim1_draws_and_cumsum [1, 2] 5 1 10000 [50] (fun _ _ => 0) (by decide) (by decide)
    (by decide) (by decide) 0 (by decide)).2.2.2.2

/-- C2: for every requested percentile `p` and position `k`, the value
output for `(k, p)` is the `p`-th percentile of the `T` cumulative-sum
values at position `k`, computed by linear interpolation between the
order statistics at floor and ceil of the rank `p/100 * (T-1)`. -/
theorem claim2_percentile_semantics (history : List ℚ) (K N T : ℤ) (P : List ℕ)
    (stream : ℕ → ℕ → ℕ) (hN : 1 ≤ N) (hT1 : 10000 ≤ T) (hT2 : T ≤ 30000)
    (hlen : N.toNat ≤ (effectiveHistory history K).length) (k p : ℕ)
    (hk : k < N.toNat) (hp : p ∈ P) (hp100 : p ≤ 100) :
    ∃ tbl, runSimulation history K N T P stream = .ok tbl ∧
      (column k (simMatrix (effectiveHistory history K) N.toNat T.toNat stream)).length =
        T.toNat ∧
      (p, percentileSpec
          (column k (simMatrix (effectiveHistory history K) N.toNat T.toNat stream)) p) ∈
        (tbl.getD k (0, [])).2 := by
  refine ⟨_, runSimulation_ok _ _ _ _ _ _ hN hT1 hT2 hlen, ?_, ?_⟩
  · rw [column_length, simMatrix_length]
  · have hne : column k (simMatrix (effectiveHistory history K) N.toNat T.toNat stream) ≠ [] := by
      apply List.length_pos.mp
      rw [column_length, simMatrix_length]
      omega
    rw [forecastTable_getD _ _ _ _ _ k hk]
    rw [List.mem_map]
    exact ⟨p, hp, by rw [percentile_eq_percentileSpec _ hne p hp100]⟩

/-- Witness for C2 at a concrete input. -/
theorem claim2_witness :
    ∃ tbl, runSimulation [1, 2] 5 1 10000 [50] (fun _ _ => 0) = .ok tbl ∧
      (column 0 (simMatrix (effectiveHistory [1, 2] 5) (Int.toNat 1) (Int.toNat 10000)
        (fun _ _ => 0))).length = Int.toNat 10000 ∧
      (50, percentileSpec (column 0 (simMatrix (effectiveHistory [1, 2] 5) (Int.toNat 1)
          (Int.toNat 10000) (fun _ _ => 0))) 50) ∈
        (tbl.getD 0 (0, [])).2 :=
  claim2_percentile_semantics [1, 2] 5 1 10000 [50] (fun _ _ => 0) (by decide) (by decide)
    (by decide) (by decide) 0 50 (by decide) (by decide) (by decide)

/-- C3: for every valid input, the forecast table has exactly `N` rows,
row `k` (0-based) carries position `k + 1`, and each row holds exactly
one value per requested percentile, in the order of `P`. -/
theorem claim3_table_shape (history : List ℚ) (K N T : ℤ) (P : List ℕ)
    (stream : ℕ → ℕ → ℕ) (hN : 1 ≤ N) (hT1 : 10000 ≤ T) (hT2 : T ≤ 30000)
    (hlen : N.toNat ≤ (effectiveHistory history K).length) :
    ∃ tbl, runSimulation history K N T P stream = .ok tbl ∧
      tbl.length = N.toNat ∧
      ∀ k, k < N.toNat → (tbl.getD k (0, [])).1 = k + 1 ∧
        (tbl.getD k (0, [])).2.map Prod.fst = P ∧
        (tbl.getD k (0, [])).2.length = P.length := by
  refine ⟨_, runSimulation_ok _ _ _ _ _ _ hN hT1 hT2 hlen,
    forecastTable_length _ _ _ _ _, ?_⟩
  intro k hk
  rw [forecastTable_getD _ _ _ _ _ k hk]
  refine ⟨rfl, ?_, by rw [List.length_map]⟩
  rw [List.map_map]
  exact List.map_id P

/-- Witness for C3 at a concrete input. -/
theorem claim3_witness :
    ∃ tbl, runSimulation [1, 2] 5 1 10000 [50, 80] (fun _ _ => 0) = .ok tbl ∧
      tbl.length = Int.toNat 1 ∧
      ∀ k, k < Int.toNat 1 → (tbl.getD k (0, [])).1 = k + 1 ∧
        (tbl.getD k (0, [])).2.map Prod.fst = [50, 80] ∧
        (tbl.getD k (0, [])).2.length = ([50, 80] : List ℕ).length :=
  claim3_table_shape [1, 2] 5 1 10000 [50, 80] (fun _ _ => 0) (by decide) (by decide)
    (by decide) (by decide)

/-- C4 counterexample: with window size `K = 0` and the non-empty
history `[1, 2]`, the condition `K < len(history)` holds, yet the
effective history is not the last `0` elements (which would be empty):
the slice `history[-0:]` is the whole history. -/
theorem claim4_counterexample :
    (0 : ℤ) < (([1, 2] : List ℚ).length : ℤ) ∧
    effectiveHistory [1, 2] 0 ≠ lastElems [1, 2] (Int.toNat 0) := by
  constructor
  · decide
  · decide

/-- C4 amended: for every history and every configured window size
`K ≥ 1`, the effective history is the last `K` elements of the history
when `K < len(history)` and the whole history otherwise, and the
truncation is applied before the sufficiency check: a validated run
fails with InsufficientData exactly when the effective history is
shorter than `N`. -/
theorem claim4_amended_window (history : List ℚ) (K : ℤ) (hK : 1 ≤ K) :
    (effectiveHistory history K =
      if K < (history.length : ℤ) then lastElems history K.toNat else history) ∧
    (∀ (N T : ℤ) (P : List ℕ) (stream : ℕ → ℕ → ℕ), 1 ≤ N → 10000 ≤ T → T ≤ 30000 →
      (runSimulation history K N T P stream = .error .insufficientData ↔
        (effectiveHistory history K).length < N.toNat)) := by
  constructor
  · unfold effectiveHistory pySliceFrom lastElems
    split
    · rw [if_neg (by omega : ¬ (0 : ℤ) ≤ -K)]
      congr 1
      omega
    · rfl
  · intro N T P stream hN hT1 hT2
    constructor
    · intro h
      by_contra hcon
      push_neg at hcon
      rw [runSimulation_ok history K N T P stream hN hT1 hT2 hcon] at h
      exact absurd h (by simp)
    · exact runSimulation_insufficient history K N T P stream hN hT1 hT2

/-- Witness for the amended C4 at a concrete input. -/
theorem claim4_amended_witness :
    effectiveHistory [1, 2, 3] 2 =
      (if (2 : ℤ) < (([1, 2, 3] : List ℚ).length : ℤ) then lastElems [1, 2, 3] (Int.toNat 2)
        else [1, 2, 3]) :=
  (claim4_amended_window [1, 2, 3] 2 (by decide)).1

/-- C5: the engine fails with InvalidConfig whenever `N ≤ 0` or `T` is
outside `[10000, 30000]`, and the boundary trial counts `10000` and
`30000` pass this check. -/
theorem claim5_validation (history : List ℚ) (K : ℤ) (P : List ℕ)
    (stream : ℕ → ℕ → ℕ) (N T : ℤ) :
    ((N ≤ 0 ∨ T < 10000 ∨ 30000 < T) →
      runSimulation history K N T P stream = .error .invalidConfig) ∧
    (1 ≤ N → (T = 10000 ∨ T = 30000) →
      runSimulation history K N T P stream ≠ .error .invalidConfig) := by
  constructor
  · exact runSimulation_invalid history K N T P stream
  · intro hN hT
    have hT1 : 10000 ≤ T := by rcases hT with h | h <;> omega
    have hT2 : T ≤ 30000 := by rcases hT with h | h <;> omega
    unfold runSimulation
    rw [if_neg (by omega)]
    split <;> simp

/-- Witness for C5 at concrete inputs: `N = 0` is rejected, `T = 10000`
passes the check. -/
theorem claim5_witness :
    runSimulation [1] 1 0 10000 [] (fun _ _ => 0) = .error .invalidConfig ∧
    runSimulation [1] 1 1 10000 [] (fun _ _ => 0) ≠ .error .invalidConfig :=
  ⟨(claim5_validation [1] 1 [] (fun _ _ => 0) 0 10000).1 (Or.inl (by decide)),
    (claim5_validation [1] 1 [] (fun _ _ => 0) 1 10000).2 (by decide) (Or.inl rfl)⟩

/-- C6: for `N ≥ 1` (and a trial count passing validation), the engine
fails with InsufficientData whenever the effective history has fewer
than `N` elements; in particular an empty history is always rejected. -/
theorem claim6_insufficient (history : List ℚ) (K : ℤ) (P : List ℕ)
    (stream : ℕ → ℕ → ℕ) (N T : ℤ) (hN : 1 ≤ N) (hT1 : 10000 ≤ T) (hT2 : T ≤ 30000) :
    ((effectiveHistory history K).length < N.toNat →
      runSimulation history K N T P stream = .error .insufficientData) ∧
    (history = [] → runSimulation history K N T P stream = .error .insufficientData) := by
  constructor
  · exact runSimulation_insufficient history K N T P stream hN hT1 hT2
  · intro h
    apply runSimulation_insufficient history K N T P stream hN hT1 hT2
    subst h
    have heff : effectiveHistory [] K = [] := by
      unfold effectiveHistory pySliceFrom
      split
      · split <;> simp
      · rfl
    rw [heff]
    have h0 : ([] : List ℚ).length = 0 := rfl
    omega

/-- Witness for C6 at concrete inputs: an empty history and a history
shorter than `N` are both rejected. -/
theorem claim6_witness :
    runSimulation [] 1 2 10000 [] (fun _ _ => 0) = .error .insufficientData ∧
    runSimulation [1] 1 2 10000 [] (fun _ _ => 0) = .error .insufficientData :=
  ⟨(claim6_insufficient [] 1 [] (fun _ _ => 0) 2 10000 (by decide) (by decide) (by decide)).2
      rfl,
    (claim6_insufficient [1] 1 [] (fun _ _ => 0) 2 10000 (by decide) (by decide)
      (by decide)).1 (by decide)⟩

/-- C9: a configured window size of `0` over a non-empty history keeps
the entire history, and a negative window size `K` with
`K < len(history)` drops the first `|K|` elements, because the window
is the Python slice `history[-K:]`. -/
theorem claim9_window_edge_cases (history : List ℚ) (K : ℤ) :
    (history ≠ [] → effectiveHistory history 0 = history) ∧
    (K < 0 → K < (history.length : ℤ) →
      effectiveHistory history K = history.drop (Int.toNat (-K))) := by
  constructor
  · intro hne
    unfold effectiveHistory pySliceFrom
    rw [if_pos (by have := List.length_pos.mpr hne; omega : (0 : ℤ) < (history.length : ℤ))]
    rw [if_pos (by omega : (0 : ℤ) ≤ -0)]
    simp
  · intro hKneg hKlen
    unfold effectiveHistory pySliceFrom
    rw [if_pos hKlen, if_pos (by omega : (0 : ℤ) ≤ -K)]

/-- Witness for C9 at concrete inputs. -/
theorem claim9_witness :
    effectiveHistory [1, 2, 3] 0 = [1, 2, 3] ∧
    effectiveHistory [1, 2, 3] (-2) = ([1, 2, 3] : List ℚ).drop (Int.toNat (-(-2))) :=
  ⟨(claim9_window_edge_cases [1, 2, 3] 0).1 (by decide),
    (claim9_window_edge_cases [1, 2, 3] (-2)).2 (by decide) (by decide)⟩

/-- C10: with an empty requested-percentile set the engine still runs:
it produces `N` rows each holding only the position and an empty list
of percentile values. -/
theorem claim10_empty_percentiles (history : List ℚ) (K N T : ℤ)
    (stream : ℕ → ℕ → ℕ) (hN : 1 ≤ N) (hT1 : 10000 ≤ T) (hT2 : T ≤ 30000)
    (hlen : N.toNat ≤ (effectiveHistory history K).length) :
    ∃ tbl, runSimulation history K N T [] stream = .ok tbl ∧
      tbl.length = N.toNat ∧
      ∀ k, k < N.toNat → tbl.getD k (0, []) = (k + 1, []) := by
  refine ⟨_, runSimulation_ok _ _ _ _ _ _ hN hT1 hT2 hlen,
    forecastTable_length _ _ _ _ _, ?_⟩
  intro k hk
  rw [forecastTable_getD _ _ _ _ _ k hk]
  simp

/-- Witness for C10 at a concrete input. -/
theorem claim10_witness :
    ∃ tbl, runSimulation [1, 2] 5 1 10000 [] (fun _ _ => 0) = .ok tbl ∧
      tbl.length = Int.toNat 1 ∧
      ∀ k, k < Int.toNat 1 → tbl.getD k (0, []) = (k + 1, []) :=
  claim10_empty_percentiles [1, 2] 5 1 10000 (fun _ _ => 0) (by decide) (by decide)
    (by decide) (by decide)

/-- C7: within any row of the output table, forecast values are
monotone in the requested percentile: for `p1 ≤ p2 ≤ 100`, the value
recorded for `p1` is at most the value recorded for `p2`. -/
theorem claim7_percentile_monotone (history : List ℚ) (K N T : ℤ) (P : List ℕ)
    (stream : ℕ → ℕ → ℕ) (hN : 1 ≤ N) (hT1 : 10000 ≤ T) (hT2 : T ≤ 30000)
    (hlen : N.toNat ≤ (effectiveHistory history K).length) :
    ∃ tbl, runSimulation history K N T P stream = .ok tbl ∧
      ∀ k p1 p2 v1 v2, (p1, v1) ∈ (tbl.getD k (0, ([] : List (ℕ × ℚ)))).2 →
        (p2, v2) ∈ (tbl.getD k (0, [])).2 → p1 ≤ p2 → p2 ≤ 100 → v1 ≤ v2 := by
  refine ⟨_, runSimulation_ok _ _ _ _ _ _ hN hT1 hT2 hlen, ?_⟩
  intro k p1 p2 v1 v2 h1 h2 hp hp100
  by_cases hk : k < N.toNat
  · rw [forecastTable_getD _ _ _ _ _ k hk] at h1 h2
    simp only [List.mem_map, Prod.mk.injEq] at h1 h2
    obtain ⟨q1, hq1, hqe1, hve1⟩ := h1
    obtain ⟨q2, hq2, hqe2, hve2⟩ := h2
    subst hqe1
    subst hqe2
    rw [← hve1, ← hve2]
    apply percentile_mono
    · apply List.length_pos.mp
      rw [column_length, simMatrix_length]
      omega
    · exact hp
    · exact hp100
  · rw [List.getD_eq_default _ _ (by rw [forecastTable_length]; omega)] at h1
    simp at h1

/-- Witness for C7 at a concrete input. -/
theorem claim7_witness :
    ∃ tbl, runSimulation [1, 2] 5 1 10000 [50, 80] (fun _ _ => 0) = .ok tbl ∧
      ∀ k p1 p2 v1 v2, (p1, v1) ∈ (tbl.getD k (0, ([] : List (ℕ × ℚ)))).2 →
        (p2, v2) ∈ (tbl.getD k (0, [])).2 → p1 ≤ p2 → p2 ≤ 100 → v1 ≤ v2 :=
  claim7_percentile_monotone [1, 2] 5 1 10000 [50, 80] (fun _ _ => 0) (by decide) (by decide)
    (by decide) (by decide)

/-- C8: when every history value is non-negative, each trial's
cumulative sums are non-decreasing in position, and consequently, for a
fixed requested percentile, the output forecast values are
non-decreasing in position. -/
theorem claim8_nondecreasing_positions (history : List ℚ) (K N T : ℤ) (P : List ℕ)
    (stream : ℕ → ℕ → ℕ) (hN : 1 ≤ N) (hT1 : 10000 ≤ T) (hT2 : T ≤ 30000)
    (hlen : N.toNat ≤ (effectiveHistory history K).length)
    (hnn : ∀ x ∈ history, 0 ≤ x) :
    (∀ i, i < T.toNat → ∀ k1 k2, k1 ≤ k2 → k2 < N.toNat →
      ((simMatrix (effectiveHistory history K) N.toNat T.toNat stream).getD i []).getD k1 0 ≤
        ((simMatrix (effectiveHistory history K) N.toNat T.toNat stream).getD i []).getD
          k2 0) ∧
    ∃ tbl, runSimulation history K N T P stream = .ok tbl ∧
      ∀ k1 k2 p v1 v2, k1 ≤ k2 → (p, v1) ∈ (tbl.getD k1 (0, ([] : List (ℕ × ℚ)))).2 →
        (p, v2) ∈ (tbl.getD k2 (0, [])).2 → p ≤ 100 → v1 ≤ v2 := by
  have hnn' : ∀ x ∈ effectiveHistory history K, 0 ≤ x :=
    fun x hx => hnn x (effectiveHistory_subset history K x hx)
  constructor
  · intro i hi k1 k2 h12 hk2
    rw [simMatrix_getD _ _ _ _ i hi]
    apply cumsum_getD_mono
    · exact npChoice_nonneg _ _ _ hnn'
    · exact h12
    · rw [npChoice_length]
      exact hk2
  · refine ⟨_, runSimulation_ok _ _ _ _ _ _ hN hT1 hT2 hlen, ?_⟩
    intro k1 k2 p v1 v2 h12 h1 h2 hp100
    by_cases hk2 : k2 < N.toNat
    · have hk1 : k1 < N.toNat := by omega
      rw [forecastTable_getD _ _ _ _ _ k1 hk1] at h1
      rw [forecastTable_getD _ _ _ _ _ k2 hk2] at h2
      simp only [List.mem_map, Prod.mk.injEq] at h1 h2
      obtain ⟨q1, hq1, hqe1, hve1⟩ := h1
      obtain ⟨q2, hq2, hqe2, hve2⟩ := h2
      rw [← hve1, ← hve2, hqe1, hqe2]
      exact percentile_column_mono (effectiveHistory history K) N.toNat T.toNat stream hnn'
        (by omega) k1 k2 h12 hk2 p hp100
    · rw [List.getD_eq_default _ _ (by rw [forecastTable_length]; omega)] at h2
      simp at h2

/-- Witness for C8 at a concrete input. -/
theorem claim8_witness :
    (∀ i, i < Int.toNat 10000 → ∀ k1 k2, k1 ≤ k2 → k2 < Int.toNat 1 →
      ((simMatrix (effectiveHistory [1, 2] 5) (Int.toNat 1) (Int.toNat 10000)
          (fun _ _ => 0)).getD i []).getD k1 0 ≤
        ((simMatrix (effectiveHistory [1, 2] 5) (Int.toNat 1) (Int.toNat 10000)
          (fun _ _ => 0)).getD i []).getD k2 0) ∧
    ∃ tbl, runSimulation [1, 2] 5 1 10000 [50] (fun _ _ => 0) = .ok tbl ∧
      ∀ k1 k2 p v1 v2, k1 ≤ k2 → (p, v1) ∈ (tbl.getD k1 (0, ([] : List (ℕ × ℚ)))).2 →
        (p, v2) ∈ (tbl.getD k2 (0, [])).2 → p ≤ 100 → v1 ≤ v2 :=
  claim8_nondecreasing_positions [1, 2] 5 1 10000 [50] (fun _ _ => 0) (by decide) (by decide)
    (by decide) (by decide) (by decide)
